import Mathlib

/-!
Verification development for the photomgr crawler (package photomgr,
files base.go and ptt.go).  Go strings are modelled as lists of
characters (Go processes them rune-wise in every function treated
here); machine integers as Int or Nat; the external Firecrawl fetch as
an Option-valued parameter.  Each definition carries a comment naming
the Go function or regular expression it embeds.
-/

/-- Character predicate of unicode.IsSpace, used by strings.TrimSpace in Go.
Covers the White_Space code points (Latin-1 set plus the higher
Unicode space code points). -/
def goIsSpace (c : Char) : Bool :=
  let n := c.toNat
  (9 ≤ n && n ≤ 13) || n == 32 || n == 0x85 || n == 0xA0 || n == 0x1680 ||
  (0x2000 ≤ n && n ≤ 0x200A) || n == 0x2028 || n == 0x2029 ||
  n == 0x202F || n == 0x205F || n == 0x3000

/-- Character class of the regexp escape for whitespace in Go (RE2 Perl
class): tab, newline, form feed, carriage return, space. -/
def reSpace (c : Char) : Bool :=
  c == ' ' || c == '\t' || c == '\n' || c == '\u000C' || c == '\r'

/-- Embeds strings.TrimSpace: remove leading and trailing white space. -/
def trimSpace (l : List Char) : List Char :=
  ((l.dropWhile goIsSpace).reverse.dropWhile goIsSpace).reverse

/-- Decimal digit test, as in Go strconv: a character between the code
of zero (48) and the code of nine (57). -/
def isDigitC (c : Char) : Bool :=
  48 ≤ c.toNat && c.toNat ≤ 57

/-- ASCII letter test (used to state the single-letter-plus-digits token
shape of the specification). -/
def isLetterC (c : Char) : Bool :=
  (65 ≤ c.toNat && c.toNat ≤ 90) || (97 ≤ c.toNat && c.toNat ≤ 122)

/-- Value of a digit string, most significant digit first. -/
def digitsToNat (l : List Char) : Nat :=
  l.foldl (fun a c => a * 10 + (c.toNat - 48)) 0

/-- Digit part of strconv.Atoi: at least one decimal digit, value within
the signed 64-bit range, otherwise an error (none). -/
def atoiDigits (ds : List Char) (sgn : Int) : Option Int :=
  if ds = [] then none
  else if ds.all isDigitC then
    let v : Int := sgn * (digitsToNat ds : Int)
    if -(2 ^ 63) ≤ v ∧ v < 2 ^ 63 then some v else none
  else none

/-- Embeds strconv.Atoi: optional single sign, then decimal digits;
errors (none) on an empty string, a stray character, or 64-bit overflow. -/
def atoi (l : List Char) : Option Int :=
  match l with
  | '+' :: ds => atoiDigits ds 1
  | '-' :: ds => atoiDigits ds (-1)
  | ds => atoiDigits ds 1

/-- Embeds parsePushCount (ptt.go): trim; the full-board token maps to
100; a token with the letter X in front maps to 0; otherwise
strconv.Atoi, with 0 on error. -/
def parsePushCount (pushStr : List Char) : Int :=
  let p := trimSpace pushStr
  if p = ['爆'] then 100
  else if (['X']).isPrefixOf p then 0
  else match atoi p with
    | some count => count
    | none => 0

/-- Embeds CheckTitleWithBeauty (ptt.go): regexp.MatchString of a
pattern anchored at the start that requires the bracketed category
marker in front, which holds exactly when the title starts with it. -/
def CheckTitleWithBeauty (title : List Char) : Bool :=
  (('[' :: '正' :: '妹' :: [']'])).isPrefixOf title

/-- Portion of a list before the first occurrence of the separator list;
models the first element of strings.Split with a non-empty separator. -/
def cutBefore (sep : List Char) : List Char → List Char
  | [] => []
  | c :: cs => if sep.isPrefixOf (c :: cs) then [] else c :: cutBefore sep cs

/-- Accumulator loop of lastSegment. -/
def lastSegAux (sep : Char) (cur : List Char) : List Char → List Char
  | [] => cur.reverse
  | c :: cs => if c = sep then lastSegAux sep [] cs else lastSegAux sep (c :: cur) cs

/-- Suffix after the last occurrence of a separator character; models
the last element of strings.Split with a one-character separator. -/
def lastSegment (sep : Char) (l : List Char) : List Char :=
  lastSegAux sep [] l

/-- Embeds extractArticleIDFromURL (ptt.go): last path segment of the
URL, with everything from the html suffix on removed.  The two length
guards of the source are dead (strings.Split never returns an empty
slice) and are dropped. -/
def extractArticleIDFromURL (url : List Char) : List Char :=
  let fileName := lastSegment '/' url
  cutBefore ((r".html").data) fileName

/-- Record stored per listing entry.  The struct declaration is not in
the sources given; fields follow its uses in ptt.go and base.go
(ArticleID, ArticleTitle, URL, Likeint), matching the PostRecord of the
specification (id, title, url, score). -/
structure PostDoc where
  ArticleID : List Char
  ArticleTitle : List Char
  URL : List Char
  Likeint : Int
deriving DecidableEq, Repr

/-- Record built by the loop body of parseMarkdownToPostDocs for one
regex match (groups: 0 whole, 1 title, 2 url, 3 author, 4 date, 5 push). -/
def postDocOfMatch (baseAddress : List Char) (m : List (List Char)) : PostDoc :=
  let title := trimSpace (m.getD 1 [])
  let url0 := trimSpace (m.getD 2 [])
  let url := if ((r"http").data).isPrefixOf url0 then url0 else baseAddress ++ url0
  { ArticleID := extractArticleIDFromURL url
    ArticleTitle := title
    URL := url
    Likeint := parsePushCount (trimSpace (m.getD 5 [])) }

/-- Embeds the loop of parseMarkdownToPostDocs (ptt.go).  The input is
the list of submatches produced by FindAllStringSubmatch of the post
block pattern, in source appearance order, each a list of capture
groups (whole match first).  Incomplete matches are skipped; the title
is trimmed and filtered through CheckTitleWithBeauty; the URL is made
absolute with the base address when it does not start with http; the
push token is converted by parsePushCount. -/
def parseMarkdownToPostDocs (ms : List (List (List Char))) (baseAddress : List Char) :
    List PostDoc :=
  match ms with
  | [] => []
  | m :: rest =>
    if m.length < 6 then parseMarkdownToPostDocs rest baseAddress
    else
      let title := trimSpace (m.getD 1 [])
      let url0 := trimSpace (m.getD 2 [])
      let url := if ((r"http").data).isPrefixOf url0 then url0 else baseAddress ++ url0
      if CheckTitleWithBeauty title then
        { ArticleID := extractArticleIDFromURL url
          ArticleTitle := title
          URL := url
          Likeint := parsePushCount (trimSpace (m.getD 5 [])) } ::
          parseMarkdownToPostDocs rest baseAddress
      else parseMarkdownToPostDocs rest baseAddress

/-- Embeds strings.Contains: the pattern occurs as a contiguous
sub-list. -/
def containsSub (pat : List Char) : List Char → Bool
  | [] => pat.isPrefixOf []
  | c :: cs => pat.isPrefixOf (c :: cs) || containsSub pat cs

/-- Embeds fixImgurLink (ptt.go): a link containing the plain imgur
host is rewritten to the direct-image host with the default jpeg
extension appended to its last path segment; every other link is
returned unchanged. -/
def fixImgurLink (link : List Char) : List Char :=
  if containsSub ((r"https://imgur.com/").data) link then
    let imageID := lastSegment '/' link
    (r"https://i.imgur.com/").data ++ imageID ++ (r".jpeg").data
  else link

/-- Base address set by NewPTT. -/
def pttBaseAddress : List Char := (r"https://www.ptt.cc").data

/-- Search address set by NewPTT. -/
def pttSearchAddress : List Char := (r"https://www.ptt.cc/bbs/Beauty/search?q=").data

/-- Target URL formed by ParseSearchByKeyword (ptt.go): the stored
search address with the keyword appended. -/
def parseSearchTarget (searchAddress keyword : List Char) : List Char :=
  searchAddress ++ keyword

/-- Modelled from the spec: the URL-escaping the specification claims is
applied to the search keyword (Go net/url.QueryEscape on ASCII input):
space becomes a plus sign, unreserved characters stay, every other
character becomes a percent escape.  Missing from src; present only to
compare the specified behaviour with parseSearchTarget. -/
def urlQueryEscapeChar (c : Char) : List Char :=
  if c = ' ' then ['+']
  else if isDigitC c || isLetterC c || c = '-' || c = '_' || c = '.' || c = '~' then [c]
  else
    let n := c.toNat % 256
    let hex := fun (k : Nat) => Char.ofNat (if k < 10 then 48 + k else 55 + k)
    ['%', hex (n / 16), hex (n % 16)]

/-- Modelled from the spec: URL-escape a keyword character-wise. -/
def urlQueryEscape (l : List Char) : List Char :=
  l.flatMap urlQueryEscapeChar

/-- Embeds the state update of ParsePttPageByIndex (ptt.go) after the
target URL is formed.  The Firecrawl fetch is external input/output:
its outcome is a parameter, none for a fetch error, otherwise the match
list of the listing pattern over the returned markdown (the shape
consumed by parseMarkdownToPostDocs).  Returns the new stored posts and
the returned count. -/
def parsePttPageByIndex (storedPost : List PostDoc)
    (fetched : Option (List (List (List Char)))) (baseAddress : List Char)
    (replace : Bool) : List PostDoc × Nat :=
  match fetched with
  | none =>
    if replace then ([], 0) else (storedPost, storedPost.length)
  | some ms =>
    let newlyParsedPosts := parseMarkdownToPostDocs ms baseAddress
    let st := if replace then newlyParsedPosts else storedPost ++ newlyParsedPosts
    (st, st.length)

/-- Go slice indexing with an Int index: some element when in range,
none for the run-time panic on a negative index. -/
def listIndexZ {α : Type} (l : List α) (i : Int) : Option α :=
  if 0 ≤ i then l.get? i.toNat else none

/-- Embeds GetPostTitleByIndex (base.go and ptt.go): empty string for an
index at or past the stored count, otherwise the stored title; none
models the panic on a negative index. -/
def GetPostTitleByIndex (storedPost : List PostDoc) (postIndex : Int) : Option (List Char) :=
  if (storedPost.length : Int) ≤ postIndex then some []
  else (listIndexZ storedPost postIndex).map (fun p => p.ArticleTitle)

/-- Embeds GetPostUrlByIndex (base.go and ptt.go). -/
def GetPostUrlByIndex (storedPost : List PostDoc) (postIndex : Int) : Option (List Char) :=
  if (storedPost.length : Int) ≤ postIndex then some []
  else (listIndexZ storedPost postIndex).map (fun p => p.URL)

/-- Embeds GetPostStarByIndex (base.go and ptt.go). -/
def GetPostStarByIndex (storedPost : List PostDoc) (postIndex : Int) : Option Int :=
  if (storedPost.length : Int) ≤ postIndex then some 0
  else (listIndexZ storedPost postIndex).map (fun p => p.Likeint)

/-!
Matchers for the article-page regular expressions of GetAllFromURL
(ptt.go), translated into executable backtracking recognisers over
character lists.  Go regexp semantics are leftmost-first with lazy
and greedy quantifier order preserved; the dot does not cross
newlines, the whitespace class may.
-/

/-- Literal piece of a pattern, continuation-passing. -/
def litK {α : Type} (s : List Char) (k : List Char → Option α) (inp : List Char) : Option α :=
  if s.isPrefixOf inp then k (inp.drop s.length) else none

/-- Greedy star over a character class: longest run first, backtracking
into the continuation. -/
def starGreedy {α : Type} (p : Char → Bool) (k : List Char → Option α) :
    List Char → Option α
  | [] => k []
  | c :: cs =>
    if p c then (starGreedy p k cs).orElse (fun _ => k (c :: cs)) else k (c :: cs)

/-- Lazy star over the dot class (any character except newline):
shortest run first. -/
def dotStarLazyK {α : Type} (k : List Char → Option α) : List Char → Option α
  | [] => k []
  | c :: cs =>
    (k (c :: cs)).orElse (fun _ => if c ≠ '\n' then dotStarLazyK k cs else none)

/-- Lazy dot star that hands its captured run to the continuation. -/
def dotStarLazyCapK {α : Type} (k : List Char → List Char → Option α) (acc : List Char) :
    List Char → Option α
  | [] => k acc.reverse []
  | c :: cs =>
    (k acc.reverse (c :: cs)).orElse
      (fun _ => if c ≠ '\n' then dotStarLazyCapK k (c :: acc) cs else none)

/-- Optional group, greedy: try the body first, then skip it. -/
def optK {α : Type} (m : (List Char → Option α) → List Char → Option α)
    (k : List Char → Option α) (inp : List Char) : Option α :=
  (m k inp).orElse (fun _ => k inp)

/-- Nickname group of the metadata pattern: whitespace, an opening
parenthesis, a lazy dot run, a closing parenthesis. -/
def metaNick (k : List Char → Option (List Char)) : List Char → Option (List Char) :=
  starGreedy reSpace (litK ['('] (dotStarLazyK (litK [')'] k)))

/-- End of the metadata pattern after the title capture: whitespace, the
date line, then the multiline end-of-line anchor (end of input or a
newline ahead). -/
def metaAtEnd (cap : List Char) : List Char → Option (List Char) :=
  starGreedy reSpace (litK ('\n' :: (r"**Date**:").data)
    (starGreedy reSpace (dotStarLazyK (starGreedy reSpace (fun r =>
      if r = [] ∨ r.head? = some '\n' then some cap else none)))))

/-- Title part of the metadata pattern: whitespace, the lazily captured
title, then the date part. -/
def metaAtTitle : List Char → Option (List Char) :=
  starGreedy reSpace (dotStarLazyCapK (fun cap rest => metaAtEnd cap rest) [])

/-- Match of the strict four-field metadata pattern of GetAllFromURL at
one line start, returning the raw title capture (group three).  Mirrors
the author, optional nickname, board, title and date pieces in order. -/
def metaAt : List Char → Option (List Char) :=
  litK ((r"**Author**:").data)
    (starGreedy reSpace
      (dotStarLazyK
        (optK metaNick
          (starGreedy reSpace
            (litK ('\n' :: (r"**Board**:").data)
              (starGreedy reSpace
                (dotStarLazyK
                  (starGreedy reSpace
                    (litK ('\n' :: (r"**Title**:").data) metaAtTitle)))))))))

/-- Leftmost multiline scan: try the metadata pattern at every line
start, earliest first. -/
def metaScanAux : Bool → List Char → Option (List Char)
  | atStart, [] => if atStart then metaAt [] else none
  | atStart, c :: cs =>
    (if atStart then metaAt (c :: cs) else none).orElse
      (fun _ => metaScanAux (c == '\n') cs)

/-- FindStringSubmatch of the strict metadata pattern (metaRegex in
GetAllFromURL): the title capture of the leftmost match, if any. -/
def metaFind (md : List Char) : Option (List Char) :=
  metaScanAux true md

/-- Match of the title-only fallback pattern at one line start: the
title line tag, greedy whitespace (which may cross newlines), then the
greedy single-line capture. -/
def simpleTitleAt (inp : List Char) : Option (List Char) :=
  if ((r"**Title**:").data).isPrefixOf inp then
    let r := (inp.drop ((r"**Title**:").data).length).dropWhile reSpace
    some (r.takeWhile (fun c => c != '\n'))
  else none

/-- Leftmost multiline scan for the title-only fallback pattern. -/
def simpleTitleScanAux : Bool → List Char → Option (List Char)
  | atStart, [] => if atStart then simpleTitleAt [] else none
  | atStart, c :: cs =>
    (if atStart then simpleTitleAt (c :: cs) else none).orElse
      (fun _ => simpleTitleScanAux (c == '\n') cs)

/-- FindStringSubmatch of the title-only fallback pattern
(simpleTitleRegex in GetAllFromURL). -/
def simpleTitleFind (md : List Char) : Option (List Char) :=
  simpleTitleScanAux true md

/-- Extensions recognised by the image pattern of GetAllFromURL, in
alternation order. -/
def extList : List (List Char) :=
  [(r"jpg").data, (r"jpeg").data, (r"png").data, (r"gif").data, (r"bmp").data, (r"webp").data]

/-- Alternation over the recognised extensions followed by the closing
parenthesis; returns the matched extension and the remainder after the
parenthesis. -/
def extAfterDotAux : List (List Char) → List Char → Option (List Char × List Char)
  | [], _ => none
  | e :: es, l =>
    if e.isPrefixOf l ∧ (l.drop e.length).head? = some ')' then
      some (e, l.drop (e.length + 1))
    else extAfterDotAux es l

/-- Extension-and-parenthesis tail of the image URL group, applied after
a literal dot. -/
def extAfterDot (l : List Char) : Option (List Char × List Char) :=
  extAfterDotAux extList l

/-- Exit test of the lazy non-space run: succeeds when a literal dot, a
recognised extension and the closing parenthesis start here. -/
def urlStep : List Char → Option (List Char × List Char)
  | '.' :: r => extAfterDot r
  | _ => none

/-- Lazy non-space run of the image URL group: consume at least one
non-space character, testing after each one whether the dot, a
recognised extension and the closing parenthesis follow.  Returns the
part of the group after the scheme and the remainder after the
parenthesis. -/
def urlLoop (acc : List Char) : List Char → Option (List Char × List Char)
  | [] => none
  | c :: cs =>
    if reSpace c then none
    else
      match urlStep cs with
      | some er => some ((c :: acc).reverse ++ '.' :: er.1, er.2)
      | none => urlLoop (c :: acc) cs

/-- URL group of the image pattern: the scheme (with its greedy optional
s), then the lazy non-space run ending in a recognised extension. -/
def urlAt (inp : List Char) : Option (List Char × List Char) :=
  if ((r"https://").data).isPrefixOf inp then
    (urlLoop [] (inp.drop 8)).map (fun br => ((r"https://").data ++ br.1, br.2))
  else if ((r"http://").data).isPrefixOf inp then
    (urlLoop [] (inp.drop 7)).map (fun br => ((r"http://").data ++ br.1, br.2))
  else none

/-- Lazy alt-text run of the image pattern: at each point first try the
closing bracket, opening parenthesis and URL group, otherwise consume
one non-newline character. -/
def altLoop : List Char → Option (List Char × List Char)
  | [] => none
  | c :: cs =>
    (if ([']', '(']).isPrefixOf (c :: cs) then urlAt ((c :: cs).drop 2) else none).orElse
      (fun _ => if c ≠ '\n' then altLoop cs else none)

/-- Match of the image pattern (imageRegex in GetAllFromURL) at one
position: returns the URL capture and the remainder after the match. -/
def imageAt (inp : List Char) : Option (List Char × List Char) :=
  if (['!', '[']).isPrefixOf inp then altLoop (inp.drop 2) else none

/-- Fuel-indexed FindAllStringSubmatch loop of the image pattern: scan
left to right, resume after each match. -/
def imageFindAllFuel : Nat → List Char → List (List Char)
  | 0, _ => []
  | _ + 1, [] => []
  | n + 1, c :: cs =>
    match imageAt (c :: cs) with
    | some gr => gr.1 :: imageFindAllFuel n gr.2
    | none => imageFindAllFuel n cs

/-- FindAllStringSubmatch of the image pattern: all URL captures in
source appearance order. -/
def imageFindAll (md : List Char) : List (List Char) :=
  imageFindAllFuel md.length md

/-- Embeds the parsing part of GetAllFromURL (ptt.go) applied to the
fetched markdown: the title comes from the strict metadata match,
falling back to the title-only match and then to the empty string; the
image URLs are the image-pattern captures over the whole markdown, each
normalised by fixImgurLink; like and dislike counts are fixed at zero.
The content field computed by the source is internal and not returned. -/
def getAllFromMarkdown (md : List Char) : List Char × List (List Char) × Int × Int :=
  let title :=
    match metaFind md with
    | some t => trimSpace t
    | none =>
      match simpleTitleFind md with
      | some t => trimSpace t
      | none => []
  (title, (imageFindAll md).map fixImgurLink, 0, 0)

/-- Extensions of the imageId pattern in base.go, in alternation order. -/
def imageIdExts : List (List Char) := [(r"png").data, (r"jpg").data, (r"jpeg").data]

/-- Alternation of the imageId extensions (no anchor follows). -/
def imageIdExtAt : List (List Char) → List Char → Option (List Char)
  | [], _ => none
  | e :: es, l => if e.isPrefixOf l then some e else imageIdExtAt es l

/-- Greedy backtracking over the first group of the imageId pattern:
longest non-slash run first, requiring a literal dot and a recognised
extension after it. -/
def imageIdTry (inp run : List Char) : Nat → Option (List Char × List Char)
  | 0 => none
  | k + 1 =>
    match inp.drop (k + 1) with
    | '.' :: r =>
      (match imageIdExtAt imageIdExts r with
       | some e => some (run.take (k + 1), e)
       | none => imageIdTry inp run k)
    | _ => imageIdTry inp run k

/-- Match of the imageId pattern at one position: a non-empty non-slash
run, a dot, and one of the extensions; returns the stem and extension
groups. -/
def imageIdAt (inp : List Char) : Option (List Char × List Char) :=
  let run := inp.takeWhile (fun c => c != '/')
  imageIdTry inp run run.length

/-- FindStringSubmatch of the imageId pattern (base.go): leftmost match
wins. -/
def imageIdFind : List Char → Option (List Char × List Char)
  | [] => none
  | c :: cs => (imageIdAt (c :: cs)).orElse (fun _ => imageIdFind cs)

/-- Encoder selected by the switch at the end of the worker loop
(base.go); skip models the default case, which writes nothing. -/
inductive ImgEncoder where
  | jpg : ImgEncoder
  | png : ImgEncoder
  | gif : ImgEncoder
  | skip : ImgEncoder
deriving DecidableEq, Repr

/-- Switch on the normalised extension in the worker (base.go). -/
def encoderFor (ext : List Char) : ImgEncoder :=
  if ext = (r"jpg").data then ImgEncoder.jpg
  else if ext = (r"png").data then ImgEncoder.png
  else if ext = (r"gif").data then ImgEncoder.gif
  else ImgEncoder.skip

/-- File written by one worker iteration: stem and extension of the
destination name, and the encoder used. -/
structure SaveDecision where
  fileStem : List Char
  fileExt : List Char
  encoder : ImgEncoder
deriving DecidableEq, Repr

/-- Embeds the persistence decision of the worker loop (base.go) for a
successfully fetched and decoded image of the given bounds: persist
only when both dimensions exceed 300 and the imageId pattern matches
the target; the jpeg extension is canonicalised to jpg, and the encoder
is chosen by the normalised extension.  The network fetch, decode and
file creation are external input/output. -/
def workerPersist (w h : Int) (target : List Char) : Option SaveDecision :=
  if 300 < w ∧ 300 < h then
    match imageIdFind target with
    | none => none
    | some se =>
      let ext := if se.2 = (r"jpeg").data then (r"jpg").data else se.2
      some { fileStem := se.1, fileExt := ext, encoder := encoderFor ext }
  else none

/-- Structured article content for stating the image-extraction claim:
an interleaving of markup image references and plain text runs. -/
inductive MdItem where
  | img : List Char → List Char → MdItem
  | txt : List Char → MdItem

/-- Raw content of one item: an image reference renders as the markup
form with alt text, bracket pair and parenthesised target. -/
def renderItem : MdItem → List Char
  | MdItem.img alt url => '!' :: '[' :: (alt ++ ']' :: '(' :: (url ++ [')']))
  | MdItem.txt s => s

/-- Raw content of a whole structured document. -/
def renderDoc (items : List MdItem) : List Char :=
  (items.map renderItem).flatten

/-- Image targets of a structured document, in appearance order,
duplicates kept. -/
def docUrls : List MdItem → List (List Char)
  | [] => []
  | MdItem.img _ url :: rest => url :: docUrls rest
  | MdItem.txt _ :: rest => docUrls rest

/-- Well-formed alt text: no closing bracket, no newline. -/
def okAlt (alt : List Char) : Prop := ∀ c ∈ alt, c ≠ ']' ∧ c ≠ '\n'

/-- Well-formed image target: a scheme, a non-empty body of non-space
characters without closing parentheses, and a recognised extension
after a final dot. -/
def okUrl (url : List Char) : Prop :=
  ∃ scheme body ext,
    (scheme = (r"http://").data ∨ scheme = (r"https://").data) ∧
    url = scheme ++ (body ++ ('.' :: ext)) ∧ body ≠ [] ∧ ext ∈ extList ∧
    ∀ c ∈ body, reSpace c = false ∧ c ≠ ')'

/-- Well-formed item: images have well-formed alt text and target;
plain text never contains an exclamation mark, so no image match can
begin inside it. -/
def okItem : MdItem → Prop
  | MdItem.img alt url => okAlt alt ∧ okUrl url
  | MdItem.txt s => ∀ c ∈ s, c ≠ '!'

/-- Sample match list for exercising the listing extraction: three
complete matches, of which the first and third pass the category
filter. -/
def sampleMatches : List (List (List Char)) :=
  [[[], (r"[正妹] A").data, (r"/bbs/Beauty/M.111.A.AAA.html").data,
    (r"u1").data, (r"1/1").data, (r"10").data],
   [[], (r"[公告] B").data, (r"https://www.ptt.cc/bbs/Beauty/M.222.A.BBB.html").data,
    (r"u2").data, (r"1/2").data, (r"爆").data],
   [[], (r"[正妹] C").data, (r"/bbs/Beauty/M.333.A.CCC.html").data,
    (r"u3").data, (r"1/3").data, (r"X1").data]]

/-- Sample article content whose strict metadata block is absent but
which has a standalone title line and one image. -/
def sampleFallbackMd : List Char :=
  (r"some text").data ++ '\n' :: (r"**Title**: Fallback Title").data ++
    '\n' :: (r"body line").data ++
    '\n' :: (r"![](https://i.imgur.com/a.jpg)").data ++ ['\n']

/-- Sample article content with neither a metadata block nor a title
line, but one image. -/
def sampleNoTitleMd : List Char :=
  (r"hello world").data ++ '\n' :: (r"![](https://i.imgur.com/a.jpg)").data ++ ['\n']

/-- Sample structured document with two image references sharing one
target, to exhibit that duplicates are kept. -/
def sampleItems : List MdItem :=
  [MdItem.txt ((r"hello ").data),
   MdItem.img [] ((r"https://e.com/a.jpg").data),
   MdItem.txt [' '],
   MdItem.img ['x'] ((r"https://e.com/a.jpg").data)]

lemma dropWhile_eq_self_of (p : Char → Bool) (l : List Char)
    (h : ∀ c ∈ l, p c = false) : l.dropWhile p = l := by
  cases l with
  | nil => rfl
  | cons c cs => simp [List.dropWhile_cons, h c (by simp)]

lemma trimSpace_eq_self (l : List Char) (h : ∀ c ∈ l, goIsSpace c = false) :
    trimSpace l = l := by
  unfold trimSpace
  rw [dropWhile_eq_self_of _ _ h, dropWhile_eq_self_of, List.reverse_reverse]
  intro c hc
  exact h c (by simpa using hc)

lemma goIsSpace_false_of_letter (c : Char) (h : isLetterC c = true) :
    goIsSpace c = false := by
  simp only [isLetterC, Bool.or_eq_true, Bool.and_eq_true, decide_eq_true_eq] at h
  simp only [goIsSpace, Bool.or_eq_false_iff, Bool.and_eq_false_iff,
    decide_eq_false_iff_not, beq_eq_false_iff_ne, ne_eq, Nat.not_le]
  omega

lemma goIsSpace_false_of_digit (c : Char) (h : isDigitC c = true) :
    goIsSpace c = false := by
  simp only [isDigitC, Bool.and_eq_true, decide_eq_true_eq] at h
  simp only [goIsSpace, Bool.or_eq_false_iff, Bool.and_eq_false_iff,
    decide_eq_false_iff_not, beq_eq_false_iff_ne, ne_eq, Nat.not_le]
  omega

lemma atoi_eq_default (c : Char) (cs : List Char) (h1 : c ≠ '+') (h2 : c ≠ '-') :
    atoi (c :: cs) = atoiDigits (c :: cs) 1 := by
  unfold atoi
  split
  · rename_i heq; injection heq with hc _; exact absurd hc h1
  · rename_i heq; injection heq with hc _; exact absurd hc h2
  · rfl

lemma atoi_some_shape (l : List Char) (n : Int) (h : atoi l = some n) :
    ∃ c cs, l = c :: cs ∧ (c = '+' ∨ c = '-' ∨ isDigitC c = true) := by
  cases l with
  | nil => simp [atoi, atoiDigits] at h
  | cons c cs =>
    by_cases h1 : c = '+'
    · exact ⟨c, cs, rfl, Or.inl h1⟩
    by_cases h2 : c = '-'
    · exact ⟨c, cs, rfl, Or.inr (Or.inl h2)⟩
    refine ⟨c, cs, rfl, Or.inr (Or.inr ?_)⟩
    rw [atoi_eq_default c cs h1 h2] at h
    unfold atoiDigits at h
    rw [if_neg (by simp : ¬(c :: cs = []))] at h
    cases hall : (c :: cs).all isDigitC with
    | false => simp [hall] at h
    | true => simp [List.all_cons] at hall; exact hall.1

lemma lastSegAux_no_sep (sep : Char) (cur : List Char) (l : List Char)
    (h : sep ∉ l) : lastSegAux sep cur l = cur.reverse ++ l := by
  induction l generalizing cur with
  | nil => simp [lastSegAux]
  | cons c cs ih =>
    have hc : c ≠ sep := fun hcc => h (by simp [hcc])
    rw [lastSegAux, if_neg hc, ih _ (fun hm => h (by simp [hm]))]
    simp

lemma lastSegAux_after_sep (sep : Char) (cur : List Char) (xs ys : List Char) :
    lastSegAux sep cur (xs ++ sep :: ys) = lastSegAux sep [] ys := by
  induction xs generalizing cur with
  | nil => simp [lastSegAux]
  | cons x xs ih =>
    by_cases hx : x = sep
    · simp only [List.cons_append, lastSegAux, if_pos hx]
      exact ih []
    · simp only [List.cons_append, lastSegAux, if_neg hx]
      exact ih (x :: cur)

/-- Claim C8: fixImgurLink rewrites every link containing the plain
imgur host to the canonical direct-image host with the last path
segment kept and the default jpeg extension appended, and returns every
other link unchanged; the last path segment is the suffix after the
final slash. -/
theorem fix_imgur_link_spec :
    (∀ link, containsSub ((r"https://imgur.com/").data) link = true →
      fixImgurLink link =
        (r"https://i.imgur.com/").data ++ lastSegment '/' link ++ (r".jpeg").data) ∧
    (∀ link, containsSub ((r"https://imgur.com/").data) link = false →
      fixImgurLink link = link) ∧
    (∀ xs ys, '/' ∉ ys → lastSegment '/' (xs ++ '/' :: ys) = ys) := by
  refine ⟨?_, ?_, ?_⟩
  · intro link h
    simp [fixImgurLink, h]
  · intro link h
    simp [fixImgurLink, h]
  · intro xs ys hy
    rw [lastSegment, lastSegAux_after_sep, lastSegAux_no_sep _ _ _ hy]
    rfl

/-- Witness for C8 at a concrete share link. -/
theorem fix_imgur_link_spec_witness :
    containsSub ((r"https://imgur.com/").data) ((r"https://imgur.com/AbC").data) = true ∧
    fixImgurLink ((r"https://imgur.com/AbC").data) =
      (r"https://i.imgur.com/").data ++ lastSegment '/' ((r"https://imgur.com/AbC").data) ++
        (r".jpeg").data :=
  ⟨by decide, fix_imgur_link_spec.1 _ (by decide)⟩

/-- Claim C2: the score conversion maps the full-board token to 100, a
single-letter-plus-digits token to 0, the empty token to 0, any other
token that is not a number to 0, and a numeric token to its parsed
value. -/
theorem push_count_conversion :
    (∀ s, trimSpace s = ['爆'] → parsePushCount s = 100) ∧
    (∀ c ds, isLetterC c = true → (∀ d ∈ ds, isDigitC d = true) →
      parsePushCount (c :: ds) = 0) ∧
    parsePushCount [] = 0 ∧
    (∀ s, trimSpace s ≠ ['爆'] → atoi (trimSpace s) = none → parsePushCount s = 0) ∧
    (∀ s n, atoi (trimSpace s) = some n → parsePushCount s = n) ∧
    parsePushCount ((r"爆").data) = 100 ∧
    parsePushCount ((r"X1").data) = 0 ∧
    parsePushCount ((r"42").data) = 42 := by
  refine ⟨?_, ?_, by decide, ?_, ?_, by decide, by decide, by decide⟩
  · intro s h
    simp [parsePushCount, h]
  · intro c ds hl hd
    have hts : trimSpace (c :: ds) = c :: ds := by
      refine trimSpace_eq_self _ ?_
      intro x hx
      rcases List.mem_cons.mp hx with rfl | hx
      · exact goIsSpace_false_of_letter _ hl
      · exact goIsSpace_false_of_digit _ (hd _ hx)
    have hn : c.toNat ≤ 122 := by
      simp only [isLetterC, Bool.or_eq_true, Bool.and_eq_true, decide_eq_true_eq] at hl
      omega
    have hne : c :: ds ≠ ['爆'] := by
      intro hcc
      have : c = '爆' := (List.cons.injEq .. ▸ hcc).1
      rw [this] at hn
      simp at hn
    rw [parsePushCount, hts, if_neg hne]
    by_cases hx : c = 'X'
    · rw [if_pos]
      rw [hx]
      simp [List.isPrefixOf]
    · rw [if_neg]
      · have hplus : c ≠ '+' := by
          intro hcc
          simp only [isLetterC, hcc, Bool.or_eq_true, Bool.and_eq_true,
            decide_eq_true_eq] at hl
          revert hl
          decide
        have hminus : c ≠ '-' := by
          intro hcc
          simp only [isLetterC, hcc, Bool.or_eq_true, Bool.and_eq_true,
            decide_eq_true_eq] at hl
          revert hl
          decide
        rw [atoi_eq_default _ _ hplus hminus]
        have hcd : isDigitC c = false := by
          simp only [isLetterC, Bool.or_eq_true, Bool.and_eq_true, decide_eq_true_eq] at hl
          simp only [isDigitC, Bool.and_eq_false_iff, decide_eq_false_iff_not, Nat.not_le]
          omega
        unfold atoiDigits
        rw [if_neg (by simp : ¬(c :: ds = []))]
        have : (c :: ds).all isDigitC = false := by
          simp [List.all_cons, hcd]
        simp [this]
      · simp [List.isPrefixOf]
        intro hcc
        exact absurd hcc.symm hx
  · intro s h1 h2
    simp only [parsePushCount, if_neg h1]
    by_cases hx : (['X']).isPrefixOf (trimSpace s) = true
    · simp [hx]
    · simp only [Bool.not_eq_true] at hx
      simp [hx, h2]
  · intro s n h
    obtain ⟨c, cs, hp, hc⟩ := atoi_some_shape _ _ h
    have hcn : c.toNat = 43 ∨ c.toNat = 45 ∨ (48 ≤ c.toNat ∧ c.toNat ≤ 57) := by
      rcases hc with rfl | rfl | hd
      · left; rfl
      · right; left; rfl
      · right; right
        simpa [isDigitC] using hd
    have hne : trimSpace s ≠ ['爆'] := by
      rw [hp]
      intro hcc
      have : c = '爆' := (List.cons.injEq .. ▸ hcc).1
      rw [this] at hcn
      revert hcn
      decide
    have hxne : c ≠ 'X' := by
      intro hcc
      rw [hcc] at hcn
      revert hcn
      decide
    simp only [parsePushCount, if_neg hne]
    rw [if_neg]
    · simp [h]
    · rw [hp]
      simp [List.isPrefixOf]
      intro hcc
      exact absurd hcc.symm hxne

/-- Witness for C2 at a concrete letter-plus-digits token. -/
theorem push_count_conversion_witness :
    isLetterC 'X' = true ∧ parsePushCount ['X', '1'] = 0 :=
  ⟨by decide, push_count_conversion.2.1 'X' ['1'] (by decide) (by decide)⟩

/-- Claim C4: on a fetch failure, a replacing page request clears the
stored posts and returns zero, while an appending one leaves them
unchanged and returns the existing count. -/
theorem list_page_fetch_failure (st : List PostDoc) (base : List Char) :
    parsePttPageByIndex st none base true = ([], 0) ∧
    parsePttPageByIndex st none base false = (st, st.length) :=
  ⟨rfl, rfl⟩

/-- Claim C5: a successful replacing request followed by a successful
appending one yields the old records unchanged in front, the newly
extracted ones appended, and the summed count. -/
theorem list_page_append_semantics (st : List PostDoc) (base : List Char)
    (ms1 ms2 : List (List (List Char))) :
    (parsePttPageByIndex (parsePttPageByIndex st (some ms1) base true).1
        (some ms2) base false).1 =
      (parsePttPageByIndex st (some ms1) base true).1 ++
        parseMarkdownToPostDocs ms2 base ∧
    (parsePttPageByIndex (parsePttPageByIndex st (some ms1) base true).1
        (some ms2) base false).1.length =
      (parsePttPageByIndex st (some ms1) base true).1.length +
        (parseMarkdownToPostDocs ms2 base).length ∧
    (parsePttPageByIndex (parsePttPageByIndex st (some ms1) base true).1
        (some ms2) base false).1.take
        (parsePttPageByIndex st (some ms1) base true).1.length =
      (parsePttPageByIndex st (some ms1) base true).1 ∧
    (parsePttPageByIndex (parsePttPageByIndex st (some ms1) base true).1
        (some ms2) base false).2 =
      (parsePttPageByIndex st (some ms1) base true).1.length +
        (parseMarkdownToPostDocs ms2 base).length := by
  refine ⟨rfl, ?_, ?_, ?_⟩
  · simp [parsePttPageByIndex]
  · simp [parsePttPageByIndex, List.take_left]
  · simp [parsePttPageByIndex]

/-- Claim C7 counterexample: the search target is not formed from the
URL-escaped keyword; a keyword containing a space is concatenated
as-is, not with the space escaped. -/
theorem search_target_not_escaped :
    parseSearchTarget pttSearchAddress ['a', ' ', 'b'] ≠
      pttSearchAddress ++ urlQueryEscape ['a', ' ', 'b'] := by
  decide

/-- Claim C7 amended: the search resolution concatenates the fixed
search endpoint with the keyword exactly as given, applying no escaping
and no further normalization. -/
theorem search_target_concat (keyword : List Char) :
    parseSearchTarget pttSearchAddress keyword = pttSearchAddress ++ keyword :=
  rfl

/-- Claim C10: for an index at or past the stored count the accessors
return the neutral value (empty title, empty URL, zero score) without
failing, and for an in-range index they return the stored record's
fields. -/
theorem accessors_safe :
    (∀ (st : List PostDoc) (i : Int), (st.length : Int) ≤ i →
      GetPostTitleByIndex st i = some [] ∧ GetPostUrlByIndex st i = some [] ∧
      GetPostStarByIndex st i = some 0) ∧
    (∀ (st : List PostDoc) (k : Nat) (h : k < st.length),
      GetPostTitleByIndex st (k : Int) = some ((st.get ⟨k, h⟩).ArticleTitle) ∧
      GetPostUrlByIndex st (k : Int) = some ((st.get ⟨k, h⟩).URL) ∧
      GetPostStarByIndex st (k : Int) = some ((st.get ⟨k, h⟩).Likeint)) := by
  constructor
  · intro st i hi
    exact ⟨by simp [GetPostTitleByIndex, hi], by simp [GetPostUrlByIndex, hi],
      by simp [GetPostStarByIndex, hi]⟩
  · intro st k h
    have h1 : ¬ ((st.length : Int) ≤ (k : Int)) := by
      simp only [Int.not_le]
      exact_mod_cast h
    have h2 : (0 : Int) ≤ (k : Int) := Int.natCast_nonneg k
    have h3 : ((k : Int)).toNat = k := Int.toNat_natCast k
    have h4 : st[k]? = some st[k] := List.getElem?_eq_getElem h
    refine ⟨?_, ?_, ?_⟩
    · simp [GetPostTitleByIndex, listIndexZ, h1, h2, h3, h4]
    · simp [GetPostUrlByIndex, listIndexZ, h1, h2, h3, h4]
    · simp [GetPostStarByIndex, listIndexZ, h1, h2, h3, h4]

/-- Witness for C10 at a concrete one-record session and the
out-of-range index five. -/
theorem accessors_safe_witness :
    ((([⟨[], ['t'], ['u'], 3⟩] : List PostDoc).length : Int) ≤ 5) ∧
    (GetPostTitleByIndex [⟨[], ['t'], ['u'], 3⟩] 5 = some [] ∧
      GetPostUrlByIndex [⟨[], ['t'], ['u'], 3⟩] 5 = some [] ∧
      GetPostStarByIndex [⟨[], ['t'], ['u'], 3⟩] 5 = some 0) :=
  ⟨by decide, accessors_safe.1 [⟨[], ['t'], ['u'], 3⟩] 5 (by decide)⟩

/-- Claim C1: on a listing whose blocks are all well formed (six capture
groups each), the extraction keeps exactly the blocks whose trimmed
title passes the category filter, in source appearance order, building
each record with postDocOfMatch (whose score is parsePushCount of the
push token); the returned count is the number of passing blocks. -/
theorem parse_listing_filters_and_orders (base : List Char)
    (ms : List (List (List Char))) (h : ∀ m ∈ ms, m.length = 6) :
    parseMarkdownToPostDocs ms base =
      (ms.filter (fun m => CheckTitleWithBeauty (trimSpace (m.getD 1 [])))).map
        (postDocOfMatch base) ∧
    (parseMarkdownToPostDocs ms base).length =
      ms.countP (fun m => CheckTitleWithBeauty (trimSpace (m.getD 1 []))) := by
  have key : parseMarkdownToPostDocs ms base =
      (ms.filter (fun m => CheckTitleWithBeauty (trimSpace (m.getD 1 [])))).map
        (postDocOfMatch base) := by
    induction ms with
    | nil => rfl
    | cons m rest ih =>
      have hm : m.length = 6 := h m (by simp)
      have hrest : ∀ x ∈ rest, x.length = 6 := fun x hx => h x (by simp [hx])
      rw [parseMarkdownToPostDocs, if_neg (by omega : ¬ m.length < 6)]
      by_cases hc : CheckTitleWithBeauty (trimSpace (m.getD 1 [])) = true
      · simp only [List.filter_cons, hc, if_pos, List.map_cons]
        rw [ih hrest]
        rfl
      · simp only [Bool.not_eq_true] at hc
        simp only [List.filter_cons, hc, Bool.false_eq_true, if_neg, ite_false]
        exact ih hrest
  refine ⟨key, ?_⟩
  rw [key, List.length_map, ← List.countP_eq_length_filter]

/-- Witness for C1 at the three-block sample, of which two pass the
filter. -/
theorem parse_listing_filters_and_orders_witness :
    (∀ m ∈ sampleMatches, m.length = 6) ∧
    parseMarkdownToPostDocs sampleMatches pttBaseAddress =
      (sampleMatches.filter
        (fun m => CheckTitleWithBeauty (trimSpace (m.getD 1 [])))).map
        (postDocOfMatch pttBaseAddress) :=
  ⟨by decide, (parse_listing_filters_and_orders pttBaseAddress sampleMatches (by decide)).1⟩

/-- Claim C3: when the strict metadata match fails, article extraction
returns the trimmed title of the title-only fallback match, or the
empty title when that also fails; in both cases the image references
found in the content are returned, normalised by fixImgurLink, because
the image phase does not depend on the metadata phase.  The last four
parts exercise this on concrete content: one sample with only a
standalone title line and one image, one with neither metadata nor
title but an image. -/
theorem article_title_fallback :
    (∀ md t, metaFind md = none → simpleTitleFind md = some t →
      getAllFromMarkdown md = (trimSpace t, (imageFindAll md).map fixImgurLink, 0, 0)) ∧
    (∀ md, metaFind md = none → simpleTitleFind md = none →
      getAllFromMarkdown md = ([], (imageFindAll md).map fixImgurLink, 0, 0)) ∧
    metaFind sampleFallbackMd = none ∧
    getAllFromMarkdown sampleFallbackMd =
      ((r"Fallback Title").data, [(r"https://i.imgur.com/a.jpg").data], 0, 0) ∧
    (metaFind sampleNoTitleMd = none ∧ simpleTitleFind sampleNoTitleMd = none) ∧
    getAllFromMarkdown sampleNoTitleMd =
      ([], [(r"https://i.imgur.com/a.jpg").data], 0, 0) := by
  refine ⟨?_, ?_, by decide, by decide, by decide, by decide⟩
  · intro md t h1 h2
    simp [getAllFromMarkdown, h1, h2]
  · intro md h1 h2
    simp [getAllFromMarkdown, h1, h2]

/-- Witness for C3 at the fallback sample. -/
theorem article_title_fallback_witness :
    (metaFind sampleFallbackMd = none ∧
      simpleTitleFind sampleFallbackMd = some ((r"Fallback Title").data)) ∧
    getAllFromMarkdown sampleFallbackMd =
      (trimSpace ((r"Fallback Title").data),
        (imageFindAll sampleFallbackMd).map fixImgurLink, 0, 0) :=
  ⟨⟨by decide, by decide⟩,
    article_title_fallback.1 sampleFallbackMd _ (by decide) (by decide)⟩

/-- Claim C9: the worker persists a decoded image only when both
dimensions exceed 300 (so a 250 by 250 image is never written); a
qualifying image whose link matches the filename pattern is written
under the link's stem with the jpeg extension canonicalised to jpg and
the encoder chosen by that normalised extension, as the concrete 400 by
400 case with a jpeg link shows. -/
theorem worker_size_filter :
    (∀ (w h : Int) (t : List Char) (d : SaveDecision),
      workerPersist w h t = some d → 300 < w ∧ 300 < h) ∧
    (∀ t, workerPersist 250 250 t = none) ∧
    workerPersist 400 400 ((r"https://i.imgur.com/abc.jpeg").data) =
      some { fileStem := (r"abc").data, fileExt := (r"jpg").data,
             encoder := ImgEncoder.jpg } ∧
    (∀ (w h : Int) (t stem ext : List Char),
      300 < w → 300 < h → imageIdFind t = some (stem, ext) →
      workerPersist w h t =
        some { fileStem := stem,
               fileExt := if ext = (r"jpeg").data then (r"jpg").data else ext,
               encoder :=
                 encoderFor (if ext = (r"jpeg").data then (r"jpg").data else ext) }) := by
  refine ⟨?_, ?_, by decide, ?_⟩
  · intro w h t d hd
    by_cases hc : 300 < w ∧ 300 < h
    · exact hc
    · rw [workerPersist, if_neg hc] at hd
      exact absurd hd (by simp)
  · intro t
    rw [workerPersist, if_neg (by omega : ¬ ((300 : Int) < 250 ∧ (300 : Int) < 250))]
  · intro w h t stem ext hw hh hf
    rw [workerPersist, if_pos ⟨hw, hh⟩, hf]

/-- Witness for C9 at a concrete 400 by 400 image with a png link. -/
theorem worker_size_filter_witness :
    ((300 : Int) < 400 ∧
      imageIdFind ((r"https://i.imgur.com/x.png").data) =
        some ((r"x").data, (r"png").data)) ∧
    workerPersist 400 400 ((r"https://i.imgur.com/x.png").data) =
      some { fileStem := (r"x").data,
             fileExt := if (r"png").data = (r"jpeg").data then (r"jpg").data
                        else (r"png").data,
             encoder :=
               encoderFor (if (r"png").data = (r"jpeg").data then (r"jpg").data
                           else (r"png").data) } :=
  ⟨⟨by decide, by decide⟩,
    worker_size_filter.2.2.2 400 400 _ _ _ (by decide) (by decide) (by decide)⟩

lemma extAfterDot_self (ext : List Char) (hext : ext ∈ extList) (tail : List Char) :
    extAfterDot (ext ++ (')' :: tail)) = some (ext, tail) := by
  simp only [extList, List.mem_cons, List.not_mem_nil, or_false] at hext
  rcases hext with rfl | rfl | rfl | rfl | rfl | rfl <;> rfl

lemma extList_facts : ∀ e ∈ extList, '.' ∉ e ∧ ')' ∉ e := by decide

lemma extAfterDotAux_none (es : List (List Char)) (l : List Char)
    (h : ∀ e ∈ es, ¬(e.isPrefixOf l = true ∧ (l.drop e.length).head? = some ')')) :
    extAfterDotAux es l = none := by
  induction es with
  | nil => rfl
  | cons e0 es ih =>
    rw [extAfterDotAux, if_neg (h e0 (by simp))]
    exact ih fun e he => h e (by simp [he])

lemma extAfterDot_none_mid (mid ext tail : List Char)
    (hm : ∀ c ∈ mid, c ≠ ')') (hext : ext ∈ extList) :
    extAfterDot (mid ++ ('.' :: (ext ++ (')' :: tail)))) = none := by
  apply extAfterDotAux_none
  intro e he
  rintro ⟨hpre, hhead⟩
  obtain ⟨t, ht⟩ := List.isPrefixOf_iff_prefix.mp hpre
  rw [← ht, List.drop_left] at hhead
  rcases List.append_eq_append_iff.mp ht with ⟨a', hmid, hbt⟩ | ⟨c', he', hd⟩
  · cases a' with
    | nil => rw [hbt] at hhead; simp at hhead
    | cons x a'' =>
      rw [hbt] at hhead
      simp only [List.cons_append, List.head?_cons, Option.some.injEq] at hhead
      exact hm x (by simp [hmid]) hhead
  · cases c' with
    | nil =>
      simp only [List.nil_append] at hd
      rw [← hd] at hhead
      simp only [List.head?_cons, Option.some.injEq] at hhead
      exact absurd hhead (by decide)
    | cons y c'' =>
      have hy : y = '.' := by
        have := congrArg List.head? hd
        simpa using this.symm
      have : '.' ∈ e := by
        rw [he', hy]
        simp
      exact (extList_facts e he).1 this

lemma urlStep_cons_ne (d : Char) (l : List Char) (hd : d ≠ '.') :
    urlStep (d :: l) = none := by
  unfold urlStep
  split
  · rename_i heq
    exact absurd (List.cons.injEq .. ▸ heq).1 hd
  · rfl

lemma urlLoop_complete (ext : List Char) (hext : ext ∈ extList) (tail : List Char)
    (body : List Char) :
    ∀ (acc : List Char), body ≠ [] →
      (∀ c ∈ body, reSpace c = false ∧ c ≠ ')') →
      urlLoop acc (body ++ ('.' :: (ext ++ (')' :: tail)))) =
        some (acc.reverse ++ (body ++ ('.' :: ext)), tail) := by
  induction body with
  | nil => intro acc hne _; exact absurd rfl hne
  | cons c body' ih =>
    intro acc _ hb
    have hc := hb c (by simp)
    rw [List.cons_append, urlLoop, if_neg (by simp [hc.1])]
    cases body' with
    | nil =>
      simp only [List.nil_append]
      have hstep : urlStep ('.' :: (ext ++ (')' :: tail))) =
          extAfterDot (ext ++ (')' :: tail)) := rfl
      rw [hstep, extAfterDot_self ext hext tail]
      simp
    | cons d body'' =>
      have hrec := ih (c :: acc) (by simp) (fun x hx => hb x (by simp [hx]))
      rw [List.cons_append] at hrec
      by_cases hd : d = '.'
      · subst hd
        simp only [List.cons_append]
        have hstep : urlStep ('.' :: (body'' ++ ('.' :: (ext ++ (')' :: tail))))) =
            extAfterDot (body'' ++ ('.' :: (ext ++ (')' :: tail)))) := rfl
        rw [hstep, extAfterDot_none_mid body'' ext tail
          (fun x hx => (hb x (by simp [hx])).2) hext, hrec]
        simp
      · simp only [List.cons_append]
        rw [urlStep_cons_ne d _ hd, hrec]
        simp

lemma urlAt_complete (scheme body ext tail : List Char)
    (hs : scheme = (r"http://").data ∨ scheme = (r"https://").data)
    (hb : body ≠ []) (hbc : ∀ c ∈ body, reSpace c = false ∧ c ≠ ')')
    (hext : ext ∈ extList) :
    urlAt (scheme ++ (body ++ ('.' :: (ext ++ (')' :: tail))))) =
      some (scheme ++ (body ++ ('.' :: ext)), tail) := by
  rcases hs with rfl | rfl
  · have h1 : ((r"https://").data).isPrefixOf
        ((r"http://").data ++ (body ++ ('.' :: (ext ++ (')' :: tail))))) = false := rfl
    have h2 : ((r"http://").data).isPrefixOf
        ((r"http://").data ++ (body ++ ('.' :: (ext ++ (')' :: tail))))) = true :=
      List.isPrefixOf_iff_prefix.mpr ⟨_, rfl⟩
    rw [urlAt, if_neg (by simp [h1]), if_pos h2]
    have h3 : ((r"http://").data ++ (body ++ ('.' :: (ext ++ (')' :: tail))))).drop 7 =
        body ++ ('.' :: (ext ++ (')' :: tail))) := rfl
    rw [h3, urlLoop_complete ext hext tail body [] hb hbc]
    simp
  · have h2 : ((r"https://").data).isPrefixOf
        ((r"https://").data ++ (body ++ ('.' :: (ext ++ (')' :: tail))))) = true :=
      List.isPrefixOf_iff_prefix.mpr ⟨_, rfl⟩
    rw [urlAt, if_pos h2]
    have h3 : ((r"https://").data ++ (body ++ ('.' :: (ext ++ (')' :: tail))))).drop 8 =
        body ++ ('.' :: (ext ++ (')' :: tail))) := rfl
    rw [h3, urlLoop_complete ext hext tail body [] hb hbc]
    simp

lemma altLoop_complete (alt : List Char) (hA : okAlt alt)
    (scheme body ext tail : List Char)
    (hs : scheme = (r"http://").data ∨ scheme = (r"https://").data)
    (hb : body ≠ []) (hbc : ∀ c ∈ body, reSpace c = false ∧ c ≠ ')')
    (hext : ext ∈ extList) :
    altLoop (alt ++ (']' :: '(' :: (scheme ++ (body ++ ('.' :: (ext ++ (')' :: tail))))))) =
      some (scheme ++ (body ++ ('.' :: ext)), tail) := by
  induction alt with
  | nil =>
    simp only [List.nil_append]
    rw [altLoop]
    have hp : ([']', '(']).isPrefixOf
        (']' :: '(' :: (scheme ++ (body ++ ('.' :: (ext ++ (')' :: tail)))))) = true := by
      simp [List.isPrefixOf]
    rw [if_pos hp]
    have hdrop : ((']' :: '(' :: (scheme ++ (body ++ ('.' :: (ext ++ (')' :: tail))))) :
        List Char).drop 2) = scheme ++ (body ++ ('.' :: (ext ++ (')' :: tail)))) := rfl
    rw [hdrop, urlAt_complete scheme body ext tail hs hb hbc hext]
    rfl
  | cons a alt' ih =>
    have ha := hA a (by simp)
    have hA' : okAlt alt' := fun x hx => hA x (by simp [hx])
    simp only [List.cons_append]
    rw [altLoop]
    have hp : ([']', '(']).isPrefixOf
        (a :: (alt' ++ (']' :: '(' :: (scheme ++ (body ++ ('.' :: (ext ++ (')' :: tail)))))))) =
        false := by
      simp only [List.isPrefixOf, Bool.and_eq_false_iff]
      left
      simp [beq_eq_false_iff_ne]
      exact fun hcc => ha.1 hcc.symm
    rw [if_neg (by simp [hp])]
    simp only [Option.orElse]
    rw [if_pos ha.2]
    exact ih hA'

lemma imageAt_complete (alt : List Char) (hA : okAlt alt)
    (scheme body ext tail : List Char)
    (hs : scheme = (r"http://").data ∨ scheme = (r"https://").data)
    (hb : body ≠ []) (hbc : ∀ c ∈ body, reSpace c = false ∧ c ≠ ')')
    (hext : ext ∈ extList) :
    imageAt ('!' :: '[' ::
        (alt ++ (']' :: '(' :: (scheme ++ (body ++ ('.' :: (ext ++ (')' :: tail)))))))) =
      some (scheme ++ (body ++ ('.' :: ext)), tail) := by
  rw [imageAt]
  have hp : (['!', '[']).isPrefixOf ('!' :: '[' ::
      (alt ++ (']' :: '(' :: (scheme ++ (body ++ ('.' :: (ext ++ (')' :: tail)))))))) =
      true := by
    simp [List.isPrefixOf]
  rw [if_pos hp]
  exact altLoop_complete alt hA scheme body ext tail hs hb hbc hext

lemma imageAt_not_bang (c : Char) (cs : List Char) (h : c ≠ '!') :
    imageAt (c :: cs) = none := by
  rw [imageAt, if_neg]
  intro hh
  simp only [List.isPrefixOf, Bool.and_eq_true, beq_iff_eq] at hh
  exact h hh.1.symm

lemma extAfterDotAux_rest_lt (es : List (List Char)) :
    ∀ (l : List Char) (er : List Char × List Char),
      extAfterDotAux es l = some er → er.2.length < l.length := by
  induction es with
  | nil => intro l er h; simp [extAfterDotAux] at h
  | cons e0 es ih =>
    intro l er h
    rw [extAfterDotAux] at h
    by_cases hc : e0.isPrefixOf l = true ∧ (l.drop e0.length).head? = some ')'
    · rw [if_pos hc] at h
      injection h with h'
      have hne : l.drop e0.length ≠ [] := by
        intro hnil
        rw [hnil] at hc
        exact absurd hc.2 (by simp)
      have hlen : e0.length < l.length := by
        by_contra hle
        exact hne (List.drop_eq_nil_of_le (by omega))
      rw [← h']
      simp only [List.length_drop]
      omega
    · rw [if_neg hc] at h
      exact ih l er h

lemma urlStep_rest_lt (cs : List Char) (er : List Char × List Char)
    (h : urlStep cs = some er) : er.2.length < cs.length := by
  unfold urlStep at h
  split at h
  · rename_i r
    have := extAfterDotAux_rest_lt extList r er h
    simp only [List.length_cons]
    omega
  · exact absurd h (by simp)

lemma urlLoop_rest_lt (l : List Char) :
    ∀ (acc : List Char) (br : List Char × List Char),
      urlLoop acc l = some br → br.2.length < l.length := by
  induction l with
  | nil => intro acc br h; simp [urlLoop] at h
  | cons c cs ih =>
    intro acc br h
    rw [urlLoop] at h
    by_cases hsp : reSpace c = true
    · rw [if_pos hsp] at h
      exact absurd h (by simp)
    · rw [if_neg hsp] at h
      cases hstep : urlStep cs with
      | some er =>
        rw [hstep] at h
        injection h with h'
        have := urlStep_rest_lt cs er hstep
        have hbr : br.2 = er.2 := (Prod.mk.injEq .. ▸ h').2.symm ▸ rfl
        rw [← h']
        simp only [List.length_cons]
        omega
      | none =>
        rw [hstep] at h
        have := ih (c :: acc) br h
        simp only [List.length_cons]
        omega

lemma urlAt_rest_lt (inp : List Char) (br : List Char × List Char)
    (h : urlAt inp = some br) : br.2.length < inp.length := by
  rw [urlAt] at h
  by_cases h1 : ((r"https://").data).isPrefixOf inp = true
  · rw [if_pos h1] at h
    obtain ⟨er, her, hmap⟩ := Option.map_eq_some'.mp h
    have := urlLoop_rest_lt (inp.drop 8) [] er her
    have hbr : br.2 = er.2 := by rw [← hmap]
    rw [hbr]
    have hd : (inp.drop 8).length ≤ inp.length := by
      rw [List.length_drop]; omega
    omega
  · rw [if_neg h1] at h
    by_cases h2 : ((r"http://").data).isPrefixOf inp = true
    · rw [if_pos h2] at h
      obtain ⟨er, her, hmap⟩ := Option.map_eq_some'.mp h
      have := urlLoop_rest_lt (inp.drop 7) [] er her
      have hbr : br.2 = er.2 := by rw [← hmap]
      rw [hbr]
      have hd : (inp.drop 7).length ≤ inp.length := by
        rw [List.length_drop]; omega
      omega
    · rw [if_neg h2] at h
      exact absurd h (by simp)

lemma altLoop_rest_lt (l : List Char) :
    ∀ (br : List Char × List Char), altLoop l = some br → br.2.length < l.length := by
  induction l with
  | nil => intro br h; simp [altLoop] at h
  | cons c cs ih =>
    intro br h
    rw [altLoop] at h
    by_cases hp : ([']', '(']).isPrefixOf (c :: cs) = true
    · rw [if_pos hp] at h
      cases hu : urlAt ((c :: cs).drop 2) with
      | some br' =>
        rw [hu] at h
        simp only [Option.orElse, Option.some_orElse] at h
        injection h with h'
        have := urlAt_rest_lt ((c :: cs).drop 2) br' hu
        have hlen : ((c :: cs).drop 2).length ≤ cs.length := by
          simp only [List.drop_succ_cons, List.length_drop]
          omega
        rw [← h']
        simp only [List.length_cons]
        omega
      | none =>
        rw [hu] at h
        simp only [Option.orElse, Option.none_orElse] at h
        by_cases hnl : c ≠ '\n'
        · rw [if_pos hnl] at h
          have := ih br h
          simp only [List.length_cons]
          omega
        · rw [if_neg hnl] at h
          exact absurd h (by simp)
    · rw [if_neg hp] at h
      simp only [Option.orElse, Option.none_orElse] at h
      by_cases hnl : c ≠ '\n'
      · rw [if_pos hnl] at h
        have := ih br h
        simp only [List.length_cons]
        omega
      · rw [if_neg hnl] at h
        exact absurd h (by simp)

lemma imageAt_rest_lt (inp : List Char) (br : List Char × List Char)
    (h : imageAt inp = some br) : br.2.length < inp.length := by
  rw [imageAt] at h
  by_cases hp : (['!', '[']).isPrefixOf inp = true
  · rw [if_pos hp] at h
    have := altLoop_rest_lt (inp.drop 2) br h
    have hd : (inp.drop 2).length ≤ inp.length := by
      rw [List.length_drop]; omega
    omega
  · rw [if_neg hp] at h
    exact absurd h (by simp)

lemma imageFindAllFuel_irrel (n : Nat) :
    ∀ (m : Nat) (l : List Char), l.length ≤ n → l.length ≤ m →
      imageFindAllFuel n l = imageFindAllFuel m l := by
  induction n with
  | zero =>
    intro m l h1 _
    have : l = [] := List.length_eq_zero.mp (Nat.le_zero.mp h1)
    subst this
    cases m <;> rfl
  | succ n ih =>
    intro m l h1 h2
    cases m with
    | zero =>
      have : l = [] := List.length_eq_zero.mp (Nat.le_zero.mp h2)
      subst this
      rfl
    | succ m' =>
      cases l with
      | nil => rfl
      | cons c cs =>
        rw [imageFindAllFuel, imageFindAllFuel]
        cases him : imageAt (c :: cs) with
        | some gr =>
          have hlt := imageAt_rest_lt _ _ him
          simp only [List.length_cons] at hlt h1 h2
          show gr.1 :: imageFindAllFuel n gr.2 = gr.1 :: imageFindAllFuel m' gr.2
          exact congrArg _ (ih m' gr.2 (by omega) (by omega))
        | none =>
          simp only [List.length_cons] at h1 h2
          show imageFindAllFuel n cs = imageFindAllFuel m' cs
          exact ih m' cs (by omega) (by omega)

lemma imageFindAll_cons (c : Char) (cs : List Char) :
    imageFindAll (c :: cs) =
      (match imageAt (c :: cs) with
       | some gr => gr.1 :: imageFindAll gr.2
       | none => imageFindAll cs) := by
  cases him : imageAt (c :: cs) with
  | some gr =>
    have hlt := imageAt_rest_lt _ _ him
    simp only [List.length_cons] at hlt
    unfold imageFindAll
    simp only [List.length_cons, imageFindAllFuel, him]
    rw [imageFindAllFuel_irrel cs.length gr.2.length gr.2 (by omega) (by omega)]
  | none =>
    unfold imageFindAll
    simp only [List.length_cons, imageFindAllFuel, him]

lemma imageFindAll_txt_skip (s : List Char) (h : ∀ c ∈ s, c ≠ '!') (rest : List Char) :
    imageFindAll (s ++ rest) = imageFindAll rest := by
  induction s with
  | nil => rfl
  | cons c s' ih =>
    rw [List.cons_append, imageFindAll_cons,
      imageAt_not_bang c _ (h c (by simp))]
    exact ih fun x hx => h x (by simp [hx])

lemma imageFindAll_renderDoc (items : List MdItem) (h : ∀ it ∈ items, okItem it) :
    imageFindAll (renderDoc items) = docUrls items := by
  induction items with
  | nil => rfl
  | cons it rest ih =>
    have hit := h it (by simp)
    have hrest : ∀ x ∈ rest, okItem x := fun x hx => h x (by simp [hx])
    have hsplit : renderDoc (it :: rest) = renderItem it ++ renderDoc rest := by
      simp [renderDoc]
    rw [hsplit]
    cases it with
    | txt s =>
      rw [renderItem, imageFindAll_txt_skip s hit, docUrls]
      exact ih hrest
    | img alt url =>
      obtain ⟨hA, hU⟩ := hit
      obtain ⟨scheme, body, ext, hs, hurl, hb, hext, hbc⟩ := hU
      subst hurl
      have hform : renderItem (MdItem.img alt (scheme ++ (body ++ ('.' :: ext)))) ++
          renderDoc rest =
          '!' :: '[' :: (alt ++ (']' :: '(' ::
            (scheme ++ (body ++ ('.' :: (ext ++ (')' :: renderDoc rest))))))) := by
        rw [renderItem]
        simp [List.append_assoc]
      rw [hform, imageFindAll_cons,
        imageAt_complete alt hA scheme body ext (renderDoc rest) hs hb hbc hext,
        docUrls]
      exact congrArg (List.cons (scheme ++ (body ++ ('.' :: ext)))) (ih hrest)

/-- Claim C6: the extracted image sequence consists of exactly the image
pattern captures over the raw content, each passed through the
fixImgurLink normaliser; on a structured document of image references
and image-free text runs, the result is exactly the reference targets
in first-occurrence order with duplicates kept, each normalised. -/
theorem article_image_urls :
    (∀ md, (getAllFromMarkdown md).2.1 = (imageFindAll md).map fixImgurLink) ∧
    (∀ items, (∀ it ∈ items, okItem it) →
      (getAllFromMarkdown (renderDoc items)).2.1 = (docUrls items).map fixImgurLink) := by
  have base : ∀ md, (getAllFromMarkdown md).2.1 = (imageFindAll md).map fixImgurLink := by
    intro md
    rw [getAllFromMarkdown]
  refine ⟨base, ?_⟩
  intro items h
  rw [base, imageFindAll_renderDoc items h]

/-- Witness for C6 at the sample document: a text run, an image, a text
run, and a second image with the same target. -/
theorem article_image_urls_witness :
    (∀ it ∈ sampleItems, okItem it) ∧
    (getAllFromMarkdown (renderDoc sampleItems)).2.1 =
      (docUrls sampleItems).map fixImgurLink := by
  have hok : ∀ it ∈ sampleItems, okItem it := by
    intro it hit
    simp only [sampleItems, List.mem_cons, List.not_mem_nil, or_false] at hit
    rcases hit with rfl | rfl | rfl | rfl
    · intro c hc
      revert c hc
      decide
    · refine ⟨by intro c hc; revert c hc; decide, ?_⟩
      exact ⟨(r"https://").data, (r"e.com/a").data, (r"jpg").data,
        Or.inr rfl, by decide, by decide, by decide, by decide⟩
    · intro c hc
      revert c hc
      decide
    · refine ⟨by intro c hc; revert c hc; decide, ?_⟩
      exact ⟨(r"https://").data, (r"e.com/a").data, (r"jpg").data,
        Or.inr rfl, by decide, by decide, by decide, by decide⟩
  exact ⟨hok, article_image_urls.2 sampleItems hok⟩
